import Mathlib

/-!
# Verification of the `keiro` routing core

A shallow embedding, over exact rationals, of the routing core in
`src/actions/mod.rs` and the data model in `src/actions/data.rs`.
Rust `f64` values are modelled as `ℚ`; Rust panics (`unwrap`, out-of-bounds
indexing) are modelled by `Option`; the mutually recursive conflict
resolution (`execute_action` and its `while let` loop), which does not
terminate on all inputs, takes an explicit fuel parameter and returns
`none` when the fuel is exhausted.
-/

namespace Keiro

/-- A 2-D coordinate (`geo::Coord` with `f64` fields). -/
structure Coord where
  x : ℚ
  y : ℚ
  deriving DecidableEq, Repr

/-- Motion of constant velocity in two dimensions (`ConstVel2D`). -/
structure ConstVel2D where
  x : ℚ
  y : ℚ
  deriving DecidableEq, Repr

/-- An agent (`data::Agent`).  The `reach` polygon is not used by the routing
core (`routes` and everything it calls never reads it), so it is omitted
from the embedding. -/
structure Agent where
  name : String
  position : Coord
  velocity : ConstVel2D
  safety_x : ℚ
  order : ℤ
  deriving DecidableEq, Repr

/-- The type of an action (`data::ActionType`). -/
inductive ActionType where
  | Scheduled
  | Evasive
  | Idle
  deriving DecidableEq, Repr

/-- An action (`data::Action`). -/
structure Action where
  agent : Agent
  target : Coord
  duration : ℚ
  type : ActionType
  deriving DecidableEq, Repr

/-- Pairwise safety distance, `Agent::safety_x(&self, other)` in
`data.rs`: the max of the two agents' `safety_x` fields.  (Named
`safety_x_pair` because the Lean field `safety_x` occupies the Rust
method's name.) -/
def Agent.safety_x_pair (self other : Agent) : ℚ :=
  max self.safety_x other.safety_x

/-- A schedule (`data::Schedule`). -/
structure Schedule where
  actions : List Action
  deriving DecidableEq, Repr

/-- A segment of a path (`data::Segment`).  The Rust field `end` is a Lean
keyword, so it is called `stop` here. -/
structure Segment where
  start : Coord
  stop : Coord
  duration : ℚ
  deriving DecidableEq, Repr

/-- A path (`data::Path`). -/
structure Path where
  moves : List Segment
  action : Action
  t_start : ℚ
  t_end : ℚ
  deriving DecidableEq, Repr

/-- A point in space-time (`data::PointST`). -/
structure PointST where
  x : ℚ
  y : ℚ
  t : ℚ
  deriving DecidableEq, Repr

/-- Indicator on how a conflict is resolved (`ConflictResolution`). -/
inductive ConflictResolution where
  | LowerThanX (l : ℚ)
  | HigherThanX (l : ℚ)
  deriving DecidableEq, Repr

/-- A conflict (`Conflict<'a>`); the borrowed `cause` action is stored by
value. -/
structure Conflict where
  cause : Action
  resolution : ConflictResolution
  deriving DecidableEq, Repr

/-- The output collection (`Routing`). -/
structure Routing where
  routes : List (Agent × List Path)
  deriving DecidableEq, Repr

/-- The commit log: one `(Agent, Vec<Path>)` entry per agent. -/
abbrev Log := List (Agent × List Path)

/-- Rust `Iterator::reduce`: fold the tail onto the head, `none` on an
empty list. -/
def reduceOpt (f : α → α → α) : List α → Option α
  | [] => none
  | x :: xs => some (xs.foldl f x)

/-- Rust iterator `map` with a panicking body (each element must yield
`some`); `none` models the panic. -/
def traverseOpt (f : α → Option β) : List α → Option (List β)
  | [] => some []
  | x :: xs => do
    let y ← f x
    let ys ← traverseOpt f xs
    pure (y :: ys)

/-- Model of `itertools::tuple_windows` for pairs: all consecutive pairs of a list. -/
def tupleWindows2 : List α → List (α × α)
  | x :: y :: rest => (x, y) :: tupleWindows2 (y :: rest)
  | _ => []

/-- Model of `f64::ceil` on the rationals: the least integer `≥ q`, as a
rational. -/
def ceilQ (q : ℚ) : ℚ := ((⌈q⌉ : ℤ) : ℚ)

/-- Interior of `Path::to_points_st`'s `for` loop: one sample per move,
threading the running clock; also returns the final clock value. -/
def movePointsAux : ℚ → List Segment → List PointST × ℚ
  | clock, [] => ([], clock)
  | clock, s :: rest =>
    let next := movePointsAux (clock + s.duration) rest
    (⟨s.stop.x, s.stop.y, clock + s.duration⟩ :: next.1, next.2)

/-- Model of `Path::to_points_st` in `mod.rs`: the head sample at the first move's
start (absent when `moves` is empty), one sample per move end, and a final
sample at the action target after the action duration. -/
def Path.to_points_st (p : Path) : List PointST :=
  let head : List PointST :=
    match p.moves with
    | [] => []
    | s :: _ => [⟨s.start.x, s.start.y, p.t_start⟩]
  let mp := movePointsAux p.t_start p.moves
  head ++ mp.1 ++ [⟨p.action.target.x, p.action.target.y, mp.2 + p.action.duration⟩]

/-- Model of `agent_paths` in `mod.rs`: look up an agent's path list by name;
`none` models the `unwrap` panic when the agent is absent. -/
def agent_paths (agent : Agent) (r : Log) : Option (List Path) :=
  (r.find? (fun e => e.1.name = agent.name)).map Prod.snd

/-- Model of `find_path_2d` in `mod.rs`: the single straight segment from `p` to the
action target, timed by the slower axis. -/
def find_path_2d (a : Action) (p : Coord) : List Segment :=
  let v := a.agent.velocity
  let t_x := |a.target.x - p.x| / v.x
  let t_y := |a.target.y - p.y| / v.y
  let t := max t_x t_y
  [⟨p, a.target, t⟩]

/-- Model of `evasion_target` in `mod.rs`: the evasive action for the blocking
agent, keeping its `y` and moving to the resolution's `x`. -/
def evasion_target (conflict : Conflict) : Action :=
  let target_x :=
    match conflict.resolution with
    | ConflictResolution.LowerThanX l => l
    | ConflictResolution.HigherThanX l => l
  { agent := conflict.cause.agent
    target := ⟨target_x, conflict.cause.target.y⟩
    duration := 0
    type := ActionType.Evasive }

/-- The comparator passed to `min_by` in `first_conflict`. -/
def cmpConflict (c1 c2 : Conflict) : Ordering :=
  match c1.resolution, c2.resolution with
  | ConflictResolution.LowerThanX l1, ConflictResolution.LowerThanX l2 =>
    if l1 > l2 then Ordering.lt else Ordering.gt
  | ConflictResolution.LowerThanX _, ConflictResolution.HigherThanX _ => Ordering.lt
  | ConflictResolution.HigherThanX l1, ConflictResolution.HigherThanX l2 =>
    if l1 < l2 then Ordering.lt else Ordering.gt
  | ConflictResolution.HigherThanX _, ConflictResolution.LowerThanX _ => Ordering.gt

/-- Rust `Iterator::min_by` (via `cmp::min_by`): keep the accumulator
unless it compares `Greater` to the next element. -/
def minBy (cmp : α → α → Ordering) (l : List α) : Option α :=
  reduceOpt (fun x y => if cmp x y = Ordering.gt then y else x) l

/-- The classifying closure inside `first_conflict`'s `map`: the
resolution demanded from the agent whose last committed action is `a`,
if any. -/
def conflict_resolution_for (agent : Agent) (min_x max_x : ℚ) (a : Action) :
    Option ConflictResolution :=
  let sd := a.agent.safety_x_pair agent
  if a.agent.order < agent.order ∧ a.target.x > min_x - sd then
    some (ConflictResolution.LowerThanX (min_x - sd))
  else if a.agent.order > agent.order ∧ a.target.x < max_x + sd then
    some (ConflictResolution.HigherThanX (max_x + sd))
  else
    none

/-- Model of `first_conflict` in `mod.rs`.  The outer `Option` models the panics
(`reduce(...).unwrap()` on an empty segment list, `last().unwrap()` on an
agent with no paths); the inner `Option` is the function's own return
value. -/
def first_conflict (agent : Agent) (path : List Segment) (r : Log) :
    Option (Option Conflict) := do
  let xs := path.map (fun s => s.stop.x)
  let min_x ← reduceOpt min xs
  let max_x ← reduceOpt max xs
  let others := r.filter (fun e => e.1.name ≠ agent.name)
  let lasts ← traverseOpt (fun e => (e.2.getLast?).map Path.action) others
  let cands := lasts.map (fun a => (a, conflict_resolution_for agent min_x max_x a))
  let conflicts := cands.filterMap (fun ac => ac.2.map (fun c => Conflict.mk ac.1 c))
  pure (minBy cmpConflict conflicts)

/-- The per-neighbor pair selection inside `idle_path`: the timeline
samples of the neighbor's paths from the first path ending at or after
`t0`, paired consecutively, filtered to pairs whose first point lies
inside the forbidden band around `xf`, keeping the last such pair. -/
def idle_pair (act : Action) (t0 xf : ℚ) (e : Agent × List Path) :
    Option (PointST × PointST) :=
  let sd := e.1.safety_x_pair act.agent
  (((((e.2.dropWhile (fun p => p.t_end < t0)).map Path.to_points_st).flatten
    |> tupleWindows2)
    |>.filter (fun pq =>
      if e.1.order < act.agent.order then xf - pq.1.x < sd else pq.1.x - xf < sd))
    |>.getLast?)

/-- The per-neighbor wait bound inside `idle_path`, from the selected
pair's first point `p1`. -/
def idle_wait (act : Action) (xi xf duration : ℚ) (a : Agent) (p1 : PointST) : ℚ :=
  let sd := a.safety_x_pair act.agent
  let t1 := p1.t - (|p1.x - xi| - sd) / act.agent.velocity.x
  let t2 := p1.t + (sd - |p1.x - xf|) / a.velocity.x - duration
  max t1 t2

/-- Model of `idle_path` in `mod.rs`.  `none` models the panics (absent agent,
empty path list, empty `path_2d`). -/
def idle_path (action : Action) (path_2d : List Segment) (r : Log) : Option Path := do
  let ps ← agent_paths action.agent r
  let last_path ← ps.getLast?
  let t0 := last_path.t_end
  let s0 ← path_2d.head?
  let duration := s0.duration
  let xi := s0.start.x
  let xf := s0.stop.x
  let stage1 := (r.filter (fun e => e.1.name ≠ action.agent.name)).filter
    (fun e => e.2.any (fun p => decide (t0 ≤ p.t_end)))
  let stage2 := stage1.map (fun e => (e.1, idle_pair action t0 xf e))
  let stage3 := stage2.filterMap (fun at2 => at2.2.map (fun pq => (at2.1, pq)))
  let vals := stage3.map (fun apq => idle_wait action xi xf duration apq.1 apq.2.1)
  let s := ceilQ ((reduceOpt max vals).getD t0)
  let ss := max s t0
  pure
    { moves := []
      action :=
        { agent := action.agent
          target := last_path.action.target
          duration := ss - t0
          type := ActionType.Idle }
      t_start := t0
      t_end := ss }

mutual

/-- Model of `execute_action` in `mod.rs`, with fuel for the mutual recursion with
its conflict-resolution loop.  `none` means a panic or fuel exhaustion. -/
def execute_action : Nat → Action → Log → Option Log
  | 0, _, _ => none
  | Nat.succ fuel, action, r => do
    let paths ← agent_paths action.agent r
    let lastp ← paths.getLast?
    let path_2d := find_path_2d action lastp.action.target
    let result ← conflict_loop fuel action path_2d r
    let idle ← idle_path action path_2d result
    let s0 ← path_2d.head?
    let path : Path :=
      { moves := path_2d
        action := action
        t_start := idle.t_end
        t_end := idle.t_end + s0.duration + action.duration }
    let v0 ← agent_paths action.agent result
    let v := if idle.t_end ≠ idle.t_start then v0 ++ [idle, path] else v0 ++ [path]
    let i ← result.findIdx? (fun e => e.1.name = action.agent.name)
    pure (result.set i (action.agent, v))

/-- The `while let Some(conflict) = first_conflict(...)` loop of
`execute_action`: execute the synthesized evasive action and retry. -/
def conflict_loop : Nat → Action → List Segment → Log → Option Log
  | 0, _, _, _ => none
  | Nat.succ fuel, action, path_2d, r => do
    let c ← first_conflict action.agent path_2d r
    match c with
    | none => pure r
    | some conflict => do
      let r2 ← execute_action fuel (evasion_target conflict) r
      conflict_loop fuel action path_2d r2

end

/-- The initial commit log built by `routes`: one synthetic idle path per
agent at its initial position. -/
def initLog (agents : List Agent) : Log :=
  agents.map (fun a =>
    (a,
      [{ moves := []
         action := { agent := a, target := a.position, duration := 0, type := ActionType.Idle }
         t_start := 0
         t_end := 0 }]))

/-- Model of `routes` in `mod.rs`: fold `execute_action` over the schedule,
starting from the initial log.  The fuel is threaded to every
`execute_action` call. -/
def routes (fuel : Nat) (agents : List Agent) (sched : Schedule) : Option Routing := do
  let r ← sched.actions.foldlM (fun acc a => execute_action fuel a acc) (initLog agents)
  pure { routes := r }

/-! ## Specification-side definitions

Definitions below formalise the wording of the specification's claims, to
be compared against the source embedding above. -/

/-- The timeline of an agent's path list: the concatenation of the sample
sequences of its paths (the spec's per-agent `(x, y, t)` series). -/
def timeline (ps : List Path) : List PointST :=
  (ps.map Path.to_points_st).flatten

/-- Spec-side: the piecewise-linear interpolation of the `x`-component of
a timeline at time `t` — the first consecutive sample pair whose time
interval contains `t` is interpolated linearly.  `none` when `t` is not
covered. -/
def interpX : List PointST → ℚ → Option ℚ
  | p :: q :: rest, t =>
    if p.t ≤ t ∧ t ≤ q.t then
      some (if q.t = p.t then p.x else p.x + (q.x - p.x) * (t - p.t) / (q.t - p.t))
    else interpX (q :: rest) t
  | [p], t => if p.t = t then some p.x else none
  | [], _ => none

/-- Look up the timeline of the named agent in a routing result. -/
def routeTimeline (o : Option Routing) (name : String) : Option (List PointST) :=
  o.bind (fun R => (R.routes.find? (fun e => e.1.name = name)).map (fun e => timeline e.2))

/-- Spec-side (claim C2): agent `b`'s last committed action conflicts with
requester `A`'s candidate band `[minx, maxx]` — `b` has lower order and
sits strictly right of `minx − sd`, or higher order and strictly left of
`maxx + sd`, with `sd = max(A.safety_x, B.safety_x)`. -/
def conflictsWith (A : Agent) (minx maxx : ℚ) (b : Action) : Prop :=
  (b.agent.order < A.order ∧ minx - max A.safety_x b.agent.safety_x < b.target.x) ∨
  (A.order < b.agent.order ∧ b.target.x < maxx + max A.safety_x b.agent.safety_x)

instance (A : Agent) (minx maxx : ℚ) (b : Action) :
    Decidable (conflictsWith A minx maxx b) := by
  unfold conflictsWith; infer_instance

/-- Spec-side (claim C3, literal reading): the same pair selection as the
source's, except that only timeline samples at or after `t0` are kept
before forming consecutive pairs, as the claim's words state. -/
def idle_pair_claimC3 (act : Action) (t0 xf : ℚ) (e : Agent × List Path) :
    Option (PointST × PointST) :=
  let sd := e.1.safety_x_pair act.agent
  ((((timeline e.2).filter (fun p => decide (t0 ≤ p.t)))
    |> tupleWindows2
    |>.filter (fun pq =>
      if e.1.order < act.agent.order then xf - pq.1.x < sd else pq.1.x - xf < sd))
    |>.getLast?)

/-- Spec-side (claim C3, literal reading): `idle_path` as the claim
describes it, differing from the source only in using
`idle_pair_claimC3` for the per-neighbor pair selection. -/
def idle_path_claimC3 (action : Action) (path_2d : List Segment) (r : Log) :
    Option Path := do
  let ps ← agent_paths action.agent r
  let last_path ← ps.getLast?
  let t0 := last_path.t_end
  let s0 ← path_2d.head?
  let duration := s0.duration
  let xi := s0.start.x
  let xf := s0.stop.x
  let stage1 := (r.filter (fun e => e.1.name ≠ action.agent.name)).filter
    (fun e => e.2.any (fun p => decide (t0 ≤ p.t_end)))
  let stage2 := stage1.map (fun e => (e.1, idle_pair_claimC3 action t0 xf e))
  let stage3 := stage2.filterMap (fun at2 => at2.2.map (fun pq => (at2.1, pq)))
  let vals := stage3.map (fun apq => idle_wait action xi xf duration apq.1 apq.2.1)
  let s := ceilQ ((reduceOpt max vals).getD t0)
  let ss := max s t0
  pure
    { moves := []
      action :=
        { agent := action.agent
          target := last_path.action.target
          duration := ss - t0
          type := ActionType.Idle }
      t_start := t0
      t_end := ss }

/-- Spec-side (claim C3, amended): the wait bound contributed by one
commit-log entry to the idle computation — `none` for the acting agent
itself, for a neighbor with no path ending at or after `t0`, and for a
neighbor with no in-band pair; otherwise `max t1 t2` of the last in-band
pair. -/
def neighbor_wait (act : Action) (t0 xi xf duration : ℚ) (e : Agent × List Path) :
    Option ℚ :=
  if e.1.name = act.agent.name then none
  else if e.2.any (fun p => decide (t0 ≤ p.t_end)) then
    (idle_pair act t0 xf e).map (fun pq => idle_wait act xi xf duration e.1 pq.1)
  else none

/-- Spec-side (claim C3, amended): the end time of the idle — the ceiling
of the largest neighbor wait bound (defaulting to `t0`), floored at
`t0`. -/
def idle_end_amended (act : Action) (t0 xi xf duration : ℚ) (r : Log) : ℚ :=
  max (ceilQ ((reduceOpt max (r.filterMap (neighbor_wait act t0 xi xf duration))).getD t0)) t0

/-! ## Well-formedness and the commit-log invariant -/

/-- Well-formed agent list: pairwise distinct names, strictly positive
velocity components. -/
def WFAgents (agents : List Agent) : Prop :=
  agents.Pairwise (fun a b => a.name ≠ b.name) ∧
  ∀ a ∈ agents, 0 < a.velocity.x ∧ 0 < a.velocity.y

/-- Per-entry commit-log invariant: a nonempty path list, contiguous in
time, each path of non-negative duration, idle paths of zero duration or
ending at an integer time, and the last path's action owned by the
entry's agent. -/
def EntryInv (e : Agent × List Path) : Prop :=
  e.2 ≠ [] ∧
  List.Chain' (fun p q => p.t_end = q.t_start) e.2 ∧
  (∀ p ∈ e.2, p.t_start ≤ p.t_end ∧
    (p.action.type = ActionType.Idle → p.t_start = p.t_end ∨ ∃ n : ℤ, p.t_end = (n : ℚ))) ∧
  ∀ lp, e.2.getLast? = some lp → lp.action.agent = e.1

/-- Commit-log invariant: the entries are exactly the input agents, in
order, and every entry satisfies `EntryInv`. -/
def Inv (agents : List Agent) (r : Log) : Prop :=
  r.map Prod.fst = agents ∧ ∀ e ∈ r, EntryInv e

/-- Actions fed to `execute_action` during a well-formed run: the owning
agent is one of the input agents, the dwell duration is non-negative, and
the kind is not `Idle`. -/
def GoodAction (agents : List Agent) (act : Action) : Prop :=
  act.agent ∈ agents ∧ 0 ≤ act.duration ∧ act.type ≠ ActionType.Idle

/-- Well-formed input to `routes`: well-formed agents and a schedule of
`Scheduled` actions with non-negative durations, each owned by one of the
input agents. -/
def WFInput (agents : List Agent) (sched : Schedule) : Prop :=
  WFAgents agents ∧
  ∀ act ∈ sched.actions,
    act.agent ∈ agents ∧ 0 ≤ act.duration ∧ act.type = ActionType.Scheduled

/-! ## Concrete inputs used to test the claims -/

/-- Two agents whose scheduled move is governed by the `y`-axis: the
second agent's `x`-speed along its committed segment is far below its
`velocity.x`.  Used for claim C1. -/
def c1A : Agent := ⟨"A", ⟨0, 0⟩, ⟨10, 1⟩, 10, 0⟩

/-- The slow-in-`x` neighbor for the C1 scenario. -/
def c1B : Agent := ⟨"B", ⟨20, 0⟩, ⟨10, 1/10⟩, 10, 1⟩

/-- The C1 agent list. -/
def c1Agents : List Agent := [c1A, c1B]

/-- The C1 schedule: `B` first moves to `(40, 10)` (duration governed by
`y`: 100 time units for 20 in `x`), then `A` moves to `(30, 0)`. -/
def c1Sched : Schedule :=
  ⟨[⟨c1B, ⟨40, 10⟩, 0, ActionType.Scheduled⟩, ⟨c1A, ⟨30, 0⟩, 0, ActionType.Scheduled⟩]⟩

/-- Order-inconsistent agent pair: `A` has the lower order but starts far
to the right of `B`.  Used for claim C4. -/
def c4A : Agent := ⟨"A", ⟨100, 0⟩, ⟨1, 1⟩, 10, 0⟩

/-- The low-`x` higher-order agent of the C4 scenario. -/
def c4B : Agent := ⟨"B", ⟨5, 0⟩, ⟨1, 1⟩, 10, 1⟩

/-- The C4 agent list. -/
def c4Agents : List Agent := [c4A, c4B]

/-- The C4 scheduled action: `A` moves to the origin. -/
def c4Act : Action := ⟨c4A, ⟨0, 0⟩, 0, ActionType.Scheduled⟩

/-- The C4 schedule. -/
def c4Sched : Schedule := ⟨[c4Act]⟩

/-- The initial commit log of the C4 scenario. -/
def c4Log : Log := initLog c4Agents

/-- The evasive action synthesized for `B` in the C4 scenario. -/
def c4EvB : Action := ⟨c4B, ⟨10, 0⟩, 0, ActionType.Evasive⟩

/-- The evasive action synthesized for `A` in the C4 scenario. -/
def c4EvA : Action := ⟨c4A, ⟨0, 0⟩, 0, ActionType.Evasive⟩

/-- Agent `A`'s direct path in the C4 scenario. -/
def c4PathA : List Segment := [⟨⟨100, 0⟩, ⟨0, 0⟩, 100⟩]

/-- Agent `B`'s direct path for its evasion in the C4 scenario. -/
def c4PathB : List Segment := [⟨⟨5, 0⟩, ⟨10, 0⟩, 5⟩]

/-- The conflict reported against `A`'s direct path in the C4 scenario:
`B`'s initial idle blocks it, resolved by `B` moving right of `10`. -/
def c4ConfB : Conflict :=
  ⟨⟨c4B, ⟨5, 0⟩, 0, ActionType.Idle⟩, ConflictResolution.HigherThanX 10⟩

/-- The conflict reported against `B`'s evasion path in the C4 scenario:
`A`'s initial idle blocks it, resolved by `A` moving left of `0`. -/
def c4ConfA : Conflict :=
  ⟨⟨c4A, ⟨100, 0⟩, 0, ActionType.Idle⟩, ConflictResolution.LowerThanX 0⟩

/-- A single agent whose first move takes half a time unit.  Used for
claims C5 and C6. -/
def c6A : Agent := ⟨"E", ⟨0, 0⟩, ⟨2, 1⟩, 5, 0⟩

/-- The C6 agent list. -/
def c6Agents : List Agent := [c6A]

/-- The C6 schedule: two zero-dwell actions; the first ends at `t = 1/2`,
so the second is preceded by an idle of duration `1/2`. -/
def c6Sched : Schedule :=
  ⟨[⟨c6A, ⟨1, 0⟩, 0, ActionType.Scheduled⟩, ⟨c6A, ⟨1, 0⟩, 0, ActionType.Scheduled⟩]⟩

/-- The idle path inserted before the second action of the C6 scenario,
extracted from the output of `routes`. -/
def c6IdleOut : Option Path :=
  (routes 9 c6Agents c6Sched).bind (fun R =>
    (R.routes.head?).bind (fun e => e.2.get? 2))

/-- Predicate stating that `q` is a non-negative integer (claim C6's notion). -/
def IsNonnegIntQ (q : ℚ) : Prop := ∃ n : ℕ, q = (n : ℚ)

/-- Acting agent of the C3 scenario. -/
def c3A : Agent := ⟨"A", ⟨0, 0⟩, ⟨1, 1⟩, 20, 0⟩

/-- Neighbor of the C3 scenario: its current path crosses the forbidden
band before `t0 = 5` only. -/
def c3B : Agent := ⟨"B", ⟨10, 0⟩, ⟨1, 1⟩, 20, 1⟩

/-- The C3 action: `A` dwells at `(5, 0)`. -/
def c3Act : Action := ⟨c3A, ⟨5, 0⟩, 0, ActionType.Scheduled⟩

/-- The C3 candidate path, from `A`'s last target `(0,0)` to `(5,0)`. -/
def c3Path : List Segment := [⟨⟨0, 0⟩, ⟨5, 0⟩, 5⟩]

/-- The C3 commit log: `A`'s dwell ends at `t0 = 5`; `B`'s single path
runs from `t = 0` to `t = 10`, with its in-band samples before `t = 5`. -/
def c3Log : Log :=
  [(c3A, [⟨[], ⟨c3A, ⟨0, 0⟩, 5, ActionType.Idle⟩, 0, 5⟩]),
   (c3B, [⟨[⟨⟨10, 0⟩, ⟨30, 0⟩, 4⟩], ⟨c3B, ⟨30, 0⟩, 6, ActionType.Scheduled⟩, 0, 10⟩])]

/-- Acting agent of the C5 witness scenario. -/
def c5A : Agent := ⟨"A", ⟨0, 0⟩, ⟨1, 1⟩, 10, 0⟩

/-- Distant neighbor of the C5 witness scenario. -/
def c5B : Agent := ⟨"B", ⟨100, 0⟩, ⟨1, 1⟩, 10, 1⟩

/-- The C5 witness agents. -/
def c5Agents : List Agent := [c5A, c5B]

/-- The C5 witness commit log. -/
def c5Log : Log := initLog c5Agents

/-- The C5 witness action: conflict-free dwell at `(10, 0)`. -/
def c5Act : Action := ⟨c5A, ⟨10, 0⟩, 0, ActionType.Scheduled⟩

/-- The C5 counterexample's second action: a dwell at the agent's current
position, requested while its clock stands at the fractional time `1/2`. -/
def c5cexAct2 : Action := ⟨c6A, ⟨1, 0⟩, 0, ActionType.Scheduled⟩

/-- The C5 counterexample's commit log: the single agent has committed a
move of duration `1/2`, so its last `t_end` is fractional. -/
def c5cexLog : Log :=
  [(c6A,
    [⟨[], ⟨c6A, ⟨0, 0⟩, 0, ActionType.Idle⟩, 0, 0⟩,
     ⟨[⟨⟨0, 0⟩, ⟨1, 0⟩, 1/2⟩], ⟨c6A, ⟨1, 0⟩, 0, ActionType.Scheduled⟩, 0, 1/2⟩])]

/-- A well-formed two-agent input with an empty schedule, used as a
witness input by several claims. -/
def w2Agents : List Agent := [⟨"A", ⟨0, 0⟩, ⟨1, 1⟩, 10, 0⟩, ⟨"B", ⟨50, 0⟩, ⟨1, 1⟩, 10, 1⟩]

/-- The synthetic initial idle of the first witness agent. -/
def w2PathA : Path :=
  ⟨[], ⟨⟨"A", ⟨0, 0⟩, ⟨1, 1⟩, 10, 0⟩, ⟨0, 0⟩, 0, ActionType.Idle⟩, 0, 0⟩

/-- The first witness agent's initial commit-log entry. -/
def w2EntryA : Agent × List Path := (⟨"A", ⟨0, 0⟩, ⟨1, 1⟩, 10, 0⟩, [w2PathA])

/-! ## Theorems -/

/-- C8: for every action `a` and starting position `p`, `find_path_2d`
returns exactly one segment, from `p` to the action target, with duration
`max (|Δx| / vx) (|Δy| / vy)` for the acting agent's velocity `(vx, vy)`. -/
theorem find_path_2d_single_segment (a : Action) (p : Coord) :
    find_path_2d a p =
      [{ start := p
         stop := a.target
         duration := max (|a.target.x - p.x| / a.agent.velocity.x)
                         (|a.target.y - p.y| / a.agent.velocity.y) }] := rfl

/-- C9: `routes` on an empty schedule returns, for any fuel, exactly the
initial commit log — one entry per agent, in order, holding a single
idle path with no moves, target the agent's initial position, zero
duration, and `t_start = t_end = 0`. -/
theorem routes_empty_schedule (fuel : Nat) (agents : List Agent) :
    routes fuel agents ⟨[]⟩ =
      some ⟨agents.map (fun a =>
        (a, [{ moves := []
               action := { agent := a, target := a.position, duration := 0,
                           type := ActionType.Idle }
               t_start := 0
               t_end := 0 }]))⟩ := rfl

/-- C1 (failing input): on the well-formed input `c1Agents`/`c1Sched`
(distinct names, positive velocities, non-negative durations, initial
positions separated by the safety distance), the routing output violates
the safety invariant: at time `t = 2`, covered by both timelines, the
interpolated positions are `xA = 20` and `xB = 102/5`, so
`xB − xA = 2/5 < 10 = sd(A,B)` although `A.order < B.order`. -/
theorem routes_c1_safety_violation :
    c1A.order < c1B.order ∧
    ((routeTimeline (routes 9 c1Agents c1Sched) "A").bind (fun pts => interpX pts 2))
      = some 20 ∧
    ((routeTimeline (routes 9 c1Agents c1Sched) "B").bind (fun pts => interpX pts 2))
      = some (102 / 5) ∧
    (102 / 5 : ℚ) - 20 < max c1A.safety_x c1B.safety_x := by
  refine ⟨by decide, ?_, ?_, ?_⟩ <;> with_unfolding_all decide

/-- C6 (counterexample): in the output of `routes` on the single-agent
input `c6Agents`/`c6Sched`, the inserted idle path has duration `1/2`,
which is not a non-negative integer. -/
theorem c6_idle_duration_not_integer :
    c6IdleOut.map (fun p => (p.action.type, p.t_end - p.t_start))
      = some (ActionType.Idle, 1 / 2) ∧
    ¬ IsNonnegIntQ (1 / 2) := by
  refine ⟨by with_unfolding_all decide, ?_⟩
  rintro ⟨n, hn⟩
  have hden : ((1 : ℚ) / 2).den = 2 := by with_unfolding_all decide
  rw [hn] at hden
  simp at hden

/-- C3 (counterexample): on the concrete inputs `c3Act`/`c3Path`/`c3Log`,
the source's `idle_path` selects a sample pair that begins before `t0`
(because the source only drops whole paths ending before `t0`) and waits
until `t = 10`, whereas the claim's literal reading — only sample pairs
at or after `t0` — yields no contributing pair and `t_end = 5`. -/
theorem c3_pair_selection_differs :
    (idle_path c3Act c3Path c3Log).map Path.t_end = some 10 ∧
    (idle_path_claimC3 c3Act c3Path c3Log).map Path.t_end = some 5 ∧
    idle_path c3Act c3Path c3Log ≠ idle_path_claimC3 c3Act c3Path c3Log := by
  refine ⟨?_, ?_, ?_⟩ <;> with_unfolding_all decide

/-- The C4 cycle, by induction on fuel: `A`'s direct path conflicts with
`B` sitting at `x = 5`; evading `B` to `x = 10` conflicts with `A`'s
committed position `x = 100`; evading `A` to `x = 0` reproduces the first
conflict with an unchanged commit log.  No amount of fuel suffices for
any of the four states of the cycle. -/
theorem c4_cycle (n : ℕ) :
    (∀ act : Action, act.agent = c4A → conflict_loop n act c4PathA c4Log = none) ∧
    execute_action n c4EvB c4Log = none ∧
    (∀ act : Action, act.agent = c4B → conflict_loop n act c4PathB c4Log = none) ∧
    execute_action n c4EvA c4Log = none := by
  have hcA : first_conflict c4A c4PathA c4Log = some (some c4ConfB) := by
    with_unfolding_all decide
  have hcB : first_conflict c4B c4PathB c4Log = some (some c4ConfA) := by
    with_unfolding_all decide
  have hevB : evasion_target c4ConfB = c4EvB := by decide
  have hevA : evasion_target c4ConfA = c4EvA := by decide
  have hfB : find_path_2d c4EvB ⟨5, 0⟩ = c4PathB := by with_unfolding_all decide
  have hfA : find_path_2d c4EvA ⟨100, 0⟩ = c4PathA := by with_unfolding_all decide
  have hapB : agent_paths c4EvB.agent c4Log =
      some [⟨[], ⟨c4B, ⟨5, 0⟩, 0, ActionType.Idle⟩, 0, 0⟩] := by decide
  have hapA : agent_paths c4EvA.agent c4Log =
      some [⟨[], ⟨c4A, ⟨100, 0⟩, 0, ActionType.Idle⟩, 0, 0⟩] := by decide
  induction n with
  | zero => exact ⟨fun _ _ => rfl, rfl, fun _ _ => rfl, rfl⟩
  | succ n ih =>
    obtain ⟨ihA, ihB, ihBl, ihAe⟩ := ih
    refine ⟨?_, ?_, ?_, ?_⟩
    · intro act hact
      simp only [conflict_loop, hact, hcA, Option.bind_eq_bind, Option.some_bind, hevB, ihB,
        Option.none_bind]
    · simp only [execute_action, hapB, Option.bind_eq_bind, Option.some_bind, List.getLast?,
        List.getLast_singleton, hfB, ihBl c4EvB rfl, Option.none_bind]
    · intro act hact
      simp only [conflict_loop, hact, hcB, Option.bind_eq_bind, Option.some_bind, hevA, ihAe,
        Option.none_bind]
    · simp only [execute_action, hapA, Option.bind_eq_bind, Option.some_bind, List.getLast?,
        List.getLast_singleton, hfA, ihA c4EvA rfl, Option.none_bind]

/-- C4 (failing input): on the well-formed input `c4Agents`/`c4Sched`
(unique names, schedule agent among the inputs, positive velocities),
`routes` does not terminate: the conflict-resolution recursion cycles, so
the fuel-indexed embedding returns `none` for every fuel. -/
theorem c4_routes_nonterminating (fuel : ℕ) :
    routes fuel c4Agents c4Sched = none := by
  cases fuel with
  | zero => rfl
  | succ n =>
    have h := (c4_cycle n).1
    have hap : agent_paths c4Act.agent c4Log =
        some [⟨[], ⟨c4A, ⟨100, 0⟩, 0, ActionType.Idle⟩, 0, 0⟩] := by decide
    have hfA : find_path_2d c4Act ⟨100, 0⟩ = c4PathA := by with_unfolding_all decide
    have h' := h c4Act rfl
    simp only [c4Log] at hap h'
    simp only [routes, c4Sched, List.foldlM, execute_action, hap, Option.bind_eq_bind,
      Option.some_bind, List.getLast?, List.getLast_singleton, hfA, h', Option.none_bind]

/-- A `reduceOpt` fold returns `none` exactly on the empty list. -/
theorem reduceOpt_eq_none_iff (f : α → α → α) (l : List α) :
    reduceOpt f l = none ↔ l = [] := by
  cases l <;> simp [reduceOpt]

/-- A fold by a function that always returns one of its arguments stays
inside the head-seeded list. -/
theorem foldl_mem_of_choice (f : α → α → α) (hf : ∀ a b, f a b = a ∨ f a b = b) :
    ∀ (l : List α) (a : α), l.foldl f a ∈ a :: l := by
  intro l
  induction l with
  | nil => intro a; simp
  | cons b bs ih =>
    intro a
    rw [List.foldl_cons]
    rcases hf a b with h1 | h1 <;> rw [h1]
    · have h := ih a
      rcases List.mem_cons.mp h with h2 | h2
      · exact List.mem_cons.mpr (Or.inl h2)
      · exact List.mem_cons.mpr (Or.inr (List.mem_cons.mpr (Or.inr h2)))
    · have h := ih b
      rcases List.mem_cons.mp h with h2 | h2
      · exact List.mem_cons.mpr (Or.inr (List.mem_cons.mpr (Or.inl h2)))
      · exact List.mem_cons.mpr (Or.inr (List.mem_cons.mpr (Or.inr h2)))

/-- A `reduceOpt` result is a member of the list when the folded function
always returns one of its arguments. -/
theorem reduceOpt_mem (f : α → α → α) (hf : ∀ a b, f a b = a ∨ f a b = b)
    (l : List α) (x : α) (h : reduceOpt f l = some x) : x ∈ l := by
  cases l with
  | nil => cases h
  | cons a as =>
    simp only [reduceOpt, Option.some_inj] at h
    have := foldl_mem_of_choice f hf as a
    rwa [h] at this

/-- A `traverseOpt` traversal succeeds when the function succeeds on every element. -/
theorem traverseOpt_isSome (f : α → Option β) (l : List α)
    (h : ∀ x ∈ l, (f x).isSome) : (traverseOpt f l).isSome := by
  induction l with
  | nil => simp [traverseOpt]
  | cons x xs ih =>
    have hx := h x (List.mem_cons_self x xs)
    obtain ⟨y, hy⟩ := Option.isSome_iff_exists.mp hx
    have hxs := ih (fun a ha => h a (List.mem_cons_of_mem x ha))
    obtain ⟨ys, hys⟩ := Option.isSome_iff_exists.mp hxs
    simp [traverseOpt, hy, hys]

/-- Every element of a successful `traverseOpt` output comes from an
element of the input. -/
theorem traverseOpt_mem_source (f : α → Option β) :
    ∀ (l : List α) (l' : List β), traverseOpt f l = some l' →
      ∀ y ∈ l', ∃ x ∈ l, f x = some y := by
  intro l
  induction l with
  | nil =>
    intro l' h y hy
    simp only [traverseOpt, Option.some_inj] at h
    subst h; cases hy
  | cons x xs ih =>
    intro l' h y hy
    cases hfx : f x with
    | none => rw [traverseOpt, hfx] at h; cases h
    | some b =>
      cases hxs : traverseOpt f xs with
      | none => rw [traverseOpt, hfx, hxs] at h; cases h
      | some bs =>
        rw [traverseOpt, hfx, hxs] at h
        simp only [Option.bind_eq_bind, Option.some_bind, Option.pure_def,
          Option.some_inj] at h
        subst h
        rcases List.mem_cons.mp hy with rfl | hmem
        · exact ⟨x, List.mem_cons_self x xs, hfx⟩
        · obtain ⟨a, ha, hfa⟩ := ih bs hxs y hmem
          exact ⟨a, List.mem_cons_of_mem x ha, hfa⟩

/-- Every input element of a successful `traverseOpt` contributes an
output element. -/
theorem traverseOpt_mem_target (f : α → Option β) :
    ∀ (l : List α) (l' : List β), traverseOpt f l = some l' →
      ∀ x ∈ l, ∃ y ∈ l', f x = some y := by
  intro l
  induction l with
  | nil => intro l' _ x hx; cases hx
  | cons x xs ih =>
    intro l' h z hz
    cases hfx : f x with
    | none => rw [traverseOpt, hfx] at h; cases h
    | some b =>
      cases hxs : traverseOpt f xs with
      | none => rw [traverseOpt, hfx, hxs] at h; cases h
      | some bs =>
        rw [traverseOpt, hfx, hxs] at h
        simp only [Option.bind_eq_bind, Option.some_bind, Option.pure_def,
          Option.some_inj] at h
        subst h
        rcases List.mem_cons.mp hz with rfl | hmem
        · exact ⟨b, List.mem_cons_self b bs, hfx⟩
        · obtain ⟨y, hy, hfy⟩ := ih bs hxs z hmem
          exact ⟨y, List.mem_cons_of_mem b hy, hfy⟩

/-- The classifier returns `none` exactly when the agent of `b` does not
conflict with the requested band. -/
theorem conflict_resolution_for_eq_none_iff (A : Agent) (minx maxx : ℚ) (b : Action) :
    conflict_resolution_for A minx maxx b = none ↔ ¬ conflictsWith A minx maxx b := by
  simp only [conflict_resolution_for, conflictsWith, Agent.safety_x_pair]
  rw [max_comm b.agent.safety_x A.safety_x]
  split_ifs with h1 h2 <;> simp_all

/-- A classifier result pins down the conflict and its resolution value. -/
theorem conflict_resolution_for_eq_some (A : Agent) (minx maxx : ℚ) (b : Action)
    (res : ConflictResolution) (h : conflict_resolution_for A minx maxx b = some res) :
    conflictsWith A minx maxx b ∧
    res = (if b.agent.order < A.order
      then ConflictResolution.LowerThanX (minx - max A.safety_x b.agent.safety_x)
      else ConflictResolution.HigherThanX (maxx + max A.safety_x b.agent.safety_x)) := by
  simp only [conflict_resolution_for, Agent.safety_x_pair] at h
  rw [max_comm b.agent.safety_x A.safety_x] at h
  simp only [conflictsWith]
  split_ifs at h with h1 h2 <;> simp only [Option.some_inj] at h
  · exact ⟨Or.inl h1, by rw [if_pos h1.1, ← h]⟩
  · refine ⟨Or.inr h2, ?_⟩
    have : ¬ b.agent.order < A.order := by omega
    rw [if_neg this, ← h]

/-- C2: for a single-segment candidate path (so `minx = maxx` is the
segment's end `x`) and a commit log in which every agent has at least one
path, `first_conflict` does not panic; it returns `None` iff no other
agent's last committed action conflicts — lower order strictly inside
`minx − sd`, or higher order strictly inside `maxx + sd`, with
`sd = max(A.safety_x, B.safety_x)` (equal order or exactly on the boundary
never conflict); and any returned conflict is caused by some other agent's
last committed action, with resolution `LowerThanX (minx − sd)` for a
lower-order blocker and `HigherThanX (maxx + sd)` otherwise. -/
theorem first_conflict_characterization (A : Agent) (s : Segment) (r : Log)
    (h : ∀ e ∈ r, e.2 ≠ []) :
    (first_conflict A [s] r).isSome ∧
    (first_conflict A [s] r = some none ↔
      ∀ e ∈ r, e.1.name ≠ A.name →
        ∀ lp, e.2.getLast? = some lp → ¬ conflictsWith A s.stop.x s.stop.x lp.action) ∧
    (∀ c, first_conflict A [s] r = some (some c) →
      (∃ e, e ∈ r ∧ e.1.name ≠ A.name ∧
        ∃ lp, e.2.getLast? = some lp ∧ lp.action = c.cause) ∧
      conflictsWith A s.stop.x s.stop.x c.cause ∧
      c.resolution =
        (if c.cause.agent.order < A.order then
          ConflictResolution.LowerThanX (s.stop.x - max A.safety_x c.cause.agent.safety_x)
        else
          ConflictResolution.HigherThanX (s.stop.x + max A.safety_x c.cause.agent.safety_x))) := by
  set others := r.filter (fun e => e.1.name ≠ A.name) with hothers
  have hmemo : ∀ e, e ∈ others ↔ e ∈ r ∧ e.1.name ≠ A.name := by
    intro e
    rw [hothers, List.mem_filter]
    simp
  have hsome : ∀ e ∈ others, (((e.2.getLast?).map Path.action)).isSome := by
    intro e he
    have hne := h e ((hmemo e).mp he).1
    rw [Option.isSome_map']
    exact List.getLast?_isSome.mpr hne
  obtain ⟨lasts, hlasts⟩ :=
    Option.isSome_iff_exists.mp
      (traverseOpt_isSome (fun e => (e.2.getLast?).map Path.action) others hsome)
  have hfc : first_conflict A [s] r =
      some (minBy cmpConflict (lasts.filterMap
        (fun a => (conflict_resolution_for A s.stop.x s.stop.x a).map (Conflict.mk a)))) := by
    simp only [first_conflict, List.map_cons, List.map_nil, reduceOpt, List.foldl_nil,
      Option.bind_eq_bind, Option.some_bind, ← hothers, hlasts, Option.pure_def,
      List.filterMap_map]
    rfl
  refine ⟨by rw [hfc]; rfl, ?_, ?_⟩
  · rw [hfc]
    simp only [Option.some_inj]
    rw [show (minBy cmpConflict (lasts.filterMap
        (fun a => (conflict_resolution_for A s.stop.x s.stop.x a).map (Conflict.mk a))) = none)
      ↔ (lasts.filterMap
        (fun a => (conflict_resolution_for A s.stop.x s.stop.x a).map (Conflict.mk a)) = []) from
      reduceOpt_eq_none_iff _ _]
    rw [List.filterMap_eq_nil_iff]
    constructor
    · intro hL e he hne lp hlp
      have heo : e ∈ others := (hmemo e).mpr ⟨he, hne⟩
      obtain ⟨b, hb, hfb⟩ :=
        traverseOpt_mem_target _ others lasts hlasts e heo
      rw [hlp, Option.map_some'] at hfb
      have hba : b = lp.action := by injection hfb.symm
      have := hL b hb
      rw [Option.map_eq_none', conflict_resolution_for_eq_none_iff] at this
      rwa [hba] at this
    · intro hR a ha
      obtain ⟨e, he, hfe⟩ :=
        traverseOpt_mem_source _ others lasts hlasts a ha
      obtain ⟨lp, hlp, hlpa⟩ := Option.map_eq_some'.mp hfe
      obtain ⟨her, hne⟩ := (hmemo e).mp he
      rw [Option.map_eq_none', conflict_resolution_for_eq_none_iff]
      have := hR e her hne lp hlp
      rwa [hlpa] at this
  · intro c hc
    rw [hfc] at hc
    simp only [Option.some_inj] at hc
    have hmem : c ∈ lasts.filterMap
        (fun a => (conflict_resolution_for A s.stop.x s.stop.x a).map (Conflict.mk a)) := by
      refine reduceOpt_mem _ ?_ _ _ hc
      intro x y
      by_cases hxy : cmpConflict x y = Ordering.gt <;> simp [hxy]
    obtain ⟨a, ha, hmap⟩ := List.mem_filterMap.mp hmem
    obtain ⟨res, hres, hmk⟩ := Option.map_eq_some'.mp hmap
    obtain ⟨hconf, hresval⟩ := conflict_resolution_for_eq_some A _ _ a res hres
    have hcause : c.cause = a := by rw [← hmk]
    have hresol : c.resolution = res := by rw [← hmk]
    obtain ⟨e, he, hfe⟩ :=
      traverseOpt_mem_source _ others lasts hlasts a ha
    obtain ⟨lp, hlp, hlpa⟩ := Option.map_eq_some'.mp hfe
    obtain ⟨her, hne⟩ := (hmemo e).mp he
    refine ⟨⟨e, her, hne, lp, hlp, by rw [hlpa, hcause]⟩, ?_, ?_⟩
    · rw [hcause]; exact hconf
    · rw [hresol, hresval, hcause]

/-- Witness for C2: the characterization applies to a concrete
conflict-free log. -/
theorem first_conflict_characterization_witness :
    (first_conflict c5A [⟨⟨0, 0⟩, ⟨10, 0⟩, 10⟩] (initLog c5Agents)).isSome :=
  (first_conflict_characterization c5A ⟨⟨0, 0⟩, ⟨10, 0⟩, 10⟩ (initLog c5Agents)
    (by decide)).1

/-- Composing `filterMap` after `filter` merges into one `filterMap`. -/
theorem filterMap_filter_eq (C : α → Bool) (h : α → Option β) (l : List α) :
    (l.filter C).filterMap h = l.filterMap (fun a => if C a then h a else none) := by
  induction l with
  | nil => rfl
  | cons a as ih =>
    by_cases hc : C a <;> simp [List.filter_cons, hc, List.filterMap_cons, ih]

/-- The staged per-neighbor pipeline inside `idle_path` equals a single
`filterMap` of `neighbor_wait` over the commit log. -/
theorem idle_vals_eq (act : Action) (t0 xi xf dur : ℚ) (r : Log) :
    ((((r.filter (fun e => e.1.name ≠ act.agent.name)).filter
        (fun e => e.2.any (fun p => decide (t0 ≤ p.t_end)))).map
        (fun e => (e.1, idle_pair act t0 xf e))).filterMap
        (fun at2 => at2.2.map (fun pq => (at2.1, pq)))).map
        (fun apq => idle_wait act xi xf dur apq.1 apq.2.1)
      = r.filterMap (neighbor_wait act t0 xi xf dur) := by
  rw [List.filterMap_map, List.map_filterMap, List.filter_filter, filterMap_filter_eq]
  apply List.filterMap_congr
  intro e _
  by_cases h1 : e.1.name = act.agent.name
  · simp [h1, neighbor_wait]
  · by_cases h2 : (e.2.any fun p => decide (t0 ≤ p.t_end)) = true
    · cases h3 : idle_pair act t0 xf e with
      | none => simp [h1, h2, h3, neighbor_wait]
      | some pq => simp [h1, h2, h3, neighbor_wait]
    · simp [h1, h2, neighbor_wait]

/-- Characterization of `idle_path` via `idle_end_amended`: an idle path
with no moves, target the agent's last committed action target,
`t_start = t0` and `t_end = idle_end_amended …`, of non-negative
duration. -/
theorem idle_path_shape (act : Action) (pd : List Segment) (r : Log)
    (ps : List Path) (lp : Path) (s0 : Segment)
    (hap : agent_paths act.agent r = some ps)
    (hlast : ps.getLast? = some lp)
    (hhead : pd.head? = some s0) :
    idle_path act pd r =
      some { moves := []
             action := { agent := act.agent, target := lp.action.target,
                         duration := idle_end_amended act lp.t_end s0.start.x s0.stop.x
                           s0.duration r - lp.t_end,
                         type := ActionType.Idle }
             t_start := lp.t_end
             t_end := idle_end_amended act lp.t_end s0.start.x s0.stop.x s0.duration r } ∧
    lp.t_end ≤ idle_end_amended act lp.t_end s0.start.x s0.stop.x s0.duration r := by
  constructor
  · simp only [idle_path, hap, Option.bind_eq_bind, Option.some_bind, hlast, hhead,
      Option.pure_def, Option.some_inj]
    rw [idle_vals_eq act lp.t_end s0.start.x s0.stop.x s0.duration r]
    rfl
  · exact le_max_right _ _

/-- C3 (amended): `idle_path` returns an idle path with no moves, target
equal to the agent's last committed action target, `t_start = t0` (the
agent's last committed `t_end`), and
`t_end = max (ceil (max over contributing neighbors of max(t1, t2))) t0`,
except that — unlike the claim's wording — the candidate sample pairs of
a neighbor are all consecutive sample pairs of its paths from the first
path ending at or after `t0` (so a pair may begin before `t0`), and when
no neighbor contributes the ceiling is applied to `t0` itself.  The idle
duration `t_end − t0` is non-negative. -/
theorem idle_path_amended (act : Action) (pd : List Segment) (r : Log)
    (ps : List Path) (lp : Path) (s0 : Segment)
    (hap : agent_paths act.agent r = some ps)
    (hlast : ps.getLast? = some lp)
    (hhead : pd.head? = some s0) :
    idle_path act pd r =
      some { moves := []
             action := { agent := act.agent, target := lp.action.target,
                         duration := idle_end_amended act lp.t_end s0.start.x s0.stop.x
                           s0.duration r - lp.t_end,
                         type := ActionType.Idle }
             t_start := lp.t_end
             t_end := idle_end_amended act lp.t_end s0.start.x s0.stop.x s0.duration r } ∧
    lp.t_end ≤ idle_end_amended act lp.t_end s0.start.x s0.stop.x s0.duration r :=
  idle_path_shape act pd r ps lp s0 hap hlast hhead

/-- Witness for the amended C3: the characterization applied to the
concrete C3 inputs. -/
theorem idle_path_amended_witness :
    idle_path c3Act c3Path c3Log =
      some { moves := []
             action := { agent := c3Act.agent, target := ⟨0, 0⟩,
                         duration := idle_end_amended c3Act 5 0 5 5 c3Log - 5,
                         type := ActionType.Idle }
             t_start := 5
             t_end := idle_end_amended c3Act 5 0 5 5 c3Log } ∧
    (5 : ℚ) ≤ idle_end_amended c3Act 5 0 5 5 c3Log :=
  idle_path_amended c3Act c3Path c3Log
    [⟨[], ⟨c3A, ⟨0, 0⟩, 5, ActionType.Idle⟩, 0, 5⟩]
    ⟨[], ⟨c3A, ⟨0, 0⟩, 5, ActionType.Idle⟩, 0, 5⟩
    ⟨⟨0, 0⟩, ⟨5, 0⟩, 5⟩ rfl rfl rfl

/-- Setting an index to the value it already holds leaves a list
unchanged. -/
theorem set_get_self : ∀ (l : List α) (i : ℕ) (a : α), l.get? i = some a → l.set i a = l := by
  intro l
  induction l with
  | nil => intro i a h; cases h
  | cons x xs ih =>
    intro i a h
    cases i with
    | zero =>
      simp only [List.get?_eq_getElem?, List.getElem?_cons_zero, Option.some_inj] at h
      rw [h]; rfl
    | succ j =>
      simp only [List.get?_eq_getElem?, List.getElem?_cons_succ] at h
      simp only [List.set_cons_succ]
      rw [ih j a (by simpa using h)]

/-- A successful `find?` yields a `findIdx?` index holding the found
element. -/
theorem find?_findIdx? (p : α → Bool) :
    ∀ (l : List α) (e : α), l.find? p = some e →
      ∃ i, l.findIdx? p = some i ∧ l.get? i = some e := by
  intro l
  induction l with
  | nil => intro e h; cases h
  | cons x xs ih =>
    intro e h
    by_cases hx : p x
    · rw [List.find?_cons_of_pos _ hx] at h
      exact ⟨0, by simp [hx], by simpa using h⟩
    · rw [List.find?_cons_of_neg _ (by simpa using hx)] at h
      obtain ⟨i, hfi, hget⟩ := ih e h
      refine ⟨i + 1, ?_, by simpa using hget⟩
      simp only [List.findIdx?_cons, hx, Bool.false_eq_true, if_false,
        List.findIdx?_start_succ, hfi, Option.map_some']

/-- Distinct-name agents that share a name are equal. -/
theorem eq_of_name_eq (agents : List Agent)
    (hpw : agents.Pairwise (fun a b => a.name ≠ b.name)) :
    ∀ a ∈ agents, ∀ b ∈ agents, a.name = b.name → a = b := by
  induction agents with
  | nil => intro a ha; cases ha
  | cons x xs ih =>
    intro a ha b hb hab
    obtain ⟨hx, hxs⟩ := List.pairwise_cons.mp hpw
    rcases List.mem_cons.mp ha with rfl | ha' <;>
      rcases List.mem_cons.mp hb with rfl | hb'
    · rfl
    · exact absurd hab (hx b hb')
    · exact absurd hab.symm (hx a ha')
    · exact ih hxs a ha' b hb' hab

/-- The initial commit log satisfies the invariant. -/
theorem initLog_inv (agents : List Agent) : Inv agents (initLog agents) := by
  constructor
  · rw [initLog, List.map_map]
    exact List.map_id agents
  · intro e he
    simp only [initLog, List.mem_map] at he
    obtain ⟨a, _, rfl⟩ := he
    refine ⟨by simp, by simp, ?_, ?_⟩
    · intro p hp
      rcases List.mem_singleton.mp hp with rfl
      exact ⟨le_refl _, fun _ => Or.inl rfl⟩
    · intro lp hlp
      simp only [List.getLast?_singleton, Option.some_inj] at hlp
      rw [← hlp]

/-- The amended idle end time either equals `t0` or is an integer. -/
theorem idle_end_amended_int_or_eq (act : Action) (t0 xi xf dur : ℚ) (r : Log) :
    idle_end_amended act t0 xi xf dur r = t0 ∨
    ∃ n : ℤ, idle_end_amended act t0 xi xf dur r = (n : ℚ) := by
  unfold idle_end_amended
  rcases max_cases (ceilQ ((reduceOpt max
      (r.filterMap (neighbor_wait act t0 xi xf dur))).getD t0)) t0 with ⟨h, _⟩ | ⟨h, _⟩
  · right
    exact ⟨⌈(reduceOpt max (r.filterMap (neighbor_wait act t0 xi xf dur))).getD t0⌉,
      by rw [h]; rfl⟩
  · left
    exact h

/-- Every segment of a direct path has non-negative duration when the
agent's velocity components are positive. -/
theorem find_path_2d_duration_nonneg (a : Action) (p : Coord)
    (hx : 0 < a.agent.velocity.x) (_hy : 0 < a.agent.velocity.y) :
    ∀ s ∈ find_path_2d a p, 0 ≤ s.duration := by
  intro s hs
  rcases List.mem_singleton.mp hs with rfl
  exact le_trans (div_nonneg (abs_nonneg _) (le_of_lt hx)) (le_max_left _ _)

/-- A time-contiguous list of non-negative-duration paths is sorted by
start time. -/
theorem chain'_le_of_chain'_eq :
    ∀ l : List Path, List.Chain' (fun p q => p.t_end = q.t_start) l →
      (∀ p ∈ l, p.t_start ≤ p.t_end) →
      List.Chain' (fun p q => p.t_start ≤ q.t_start) l := by
  intro l
  induction l with
  | nil => intro _ _; exact List.chain'_nil
  | cons p rest ih =>
    intro hc hn
    cases rest with
    | nil => exact List.chain'_singleton p
    | cons q rest' =>
      obtain ⟨hpq, hc'⟩ := List.chain'_cons.mp hc
      refine List.chain'_cons.mpr ⟨?_, ?_⟩
      · rw [← hpq]; exact hn p (List.mem_cons_self _ _)
      · exact ih hc' (fun x hx => hn x (List.mem_cons_of_mem _ hx))

/-- A conflict returned by `first_conflict` is caused by the last
committed action of some entry of the log. -/
theorem first_conflict_cause (A : Agent) (pd : List Segment) (r : Log) (c : Conflict)
    (h : first_conflict A pd r = some (some c)) :
    ∃ e ∈ r, ∃ lp, e.2.getLast? = some lp ∧ lp.action = c.cause := by
  simp only [first_conflict, Option.bind_eq_bind, Option.bind_eq_some, Option.pure_def,
    Option.some_inj] at h
  obtain ⟨mn, hmin, mx, hmax, lasts, hlasts, hres⟩ := h
  have hmem : c ∈ (lasts.map
      (fun a => (a, conflict_resolution_for A mn mx a))).filterMap
      (fun ac => ac.2.map (fun cc => Conflict.mk ac.1 cc)) := by
    refine reduceOpt_mem _ ?_ _ _ hres
    intro x y
    by_cases hxy : cmpConflict x y = Ordering.gt <;> simp [hxy]
  rw [List.filterMap_map] at hmem
  obtain ⟨a, ha, hmap⟩ := List.mem_filterMap.mp hmem
  obtain ⟨res, _, hmk⟩ := Option.map_eq_some'.mp hmap
  obtain ⟨e, he, hfe⟩ :=
    traverseOpt_mem_source _ _ lasts hlasts a ha
  obtain ⟨lp, hlp, hlpa⟩ := Option.map_eq_some'.mp hfe
  exact ⟨e, (List.mem_filter.mp he).1, lp, hlp, by rw [hlpa, ← hmk]⟩

/-- A successful `agent_paths` lookup comes from an entry of the log with
a matching name. -/
theorem agent_paths_spec (a : Agent) (r : Log) (ps : List Path)
    (h : agent_paths a r = some ps) :
    ∃ e ∈ r, e.1.name = a.name ∧ e.2 = ps := by
  unfold agent_paths at h
  obtain ⟨e, he, hsnd⟩ := Option.map_eq_some'.mp h
  refine ⟨e, List.mem_of_find?_eq_some he, ?_, hsnd⟩
  have := List.find?_some he
  simpa using this

/-- A successful `findIdx?` yields an element at that index satisfying
the predicate. -/
theorem findIdx?_get (p : α → Bool) :
    ∀ (l : List α) (i : ℕ), l.findIdx? p = some i →
      ∃ e, l.get? i = some e ∧ p e := by
  intro l
  induction l with
  | nil => intro i h; cases h
  | cons x xs ih =>
    intro i h
    by_cases hx : p x
    · rw [List.findIdx?_cons, if_pos hx] at h
      simp only [Option.some_inj] at h
      exact ⟨x, by rw [← h]; rfl, hx⟩
    · rw [List.findIdx?_cons, if_neg hx, List.findIdx?_start_succ] at h
      obtain ⟨j, hj, hji⟩ := Option.map_eq_some'.mp h
      obtain ⟨e, he, hpe⟩ := ih j hj
      exact ⟨e, by rw [← hji]; simpa using he, hpe⟩

/-- The head given by `head?` is a member of the list. -/
theorem mem_of_head? {l : List α} {a : α} (h : l.head? = some a) : a ∈ l := by
  cases l with
  | nil => cases h
  | cons x xs =>
    simp only [List.head?_cons, Option.some_inj] at h
    rw [← h]
    exact List.mem_cons_self x xs

/-- Fuel-indexed preservation of the commit-log invariant by
`execute_action` and its conflict-resolution loop. -/
theorem exec_preserves_inv (agents : List Agent) (hwf : WFAgents agents) :
    ∀ fuel : ℕ,
      (∀ act r r', GoodAction agents act → Inv agents r →
        execute_action fuel act r = some r' → Inv agents r') ∧
      (∀ act pd r r', Inv agents r →
        conflict_loop fuel act pd r = some r' → Inv agents r') := by
  intro fuel
  induction fuel with
  | zero =>
    constructor
    · intro _ _ _ _ _ h
      cases h
    · intro _ _ _ _ _ h
      cases h
  | succ n ih =>
    obtain ⟨ihE, ihL⟩ := ih
    constructor
    · -- execute_action (n+1)
      intro act r r' hgood hinv hex
      simp only [execute_action, Option.bind_eq_bind, Option.bind_eq_some, Option.pure_def,
        Option.some_inj] at hex
      obtain ⟨ps, hap, lp, hlast, result, hloop, idle, hidle, s0, hs0, v0, hv0, i, hidx,
        hset⟩ := hex
      have hinv2 : Inv agents result := ihL act _ r result hinv hloop
      obtain ⟨hmap2, hents2⟩ := hinv2
      -- the entry being replaced
      obtain ⟨e1, he1, he1name, he1paths⟩ := agent_paths_spec act.agent result v0 hv0
      obtain ⟨hne1, hch1, hok1, hla1⟩ := hents2 e1 he1
      rw [he1paths] at hne1 hch1 hok1 hla1
      obtain ⟨lp', hlast'⟩ :=
        Option.isSome_iff_exists.mp (List.getLast?_isSome.mpr hne1)
      have hlaglp' : lp'.action.agent = e1.1 := hla1 lp' hlast'
      -- the idle path, via the amended characterization
      set E := idle_end_amended act lp'.t_end s0.start.x s0.stop.x s0.duration result
        with hEdef
      have hidle2 := (idle_path_shape act (find_path_2d act lp.action.target) result
        v0 lp' s0 hv0 hlast' hs0).1
      have hE2 : lp'.t_end ≤ E :=
        (idle_path_shape act (find_path_2d act lp.action.target) result
          v0 lp' s0 hv0 hlast' hs0).2
      rw [hidle2] at hidle
      have hidleval : idle =
          { moves := []
            action := { agent := act.agent, target := lp'.action.target,
                        duration := E - lp'.t_end, type := ActionType.Idle }
            t_start := lp'.t_end
            t_end := E } := by
        injection hidle with h'
        rw [← h']
      have hEint := idle_end_amended_int_or_eq act lp'.t_end s0.start.x s0.stop.x
        s0.duration result
      rw [← hEdef] at hEint
      -- the element at the replaced index is the acting agent's entry
      obtain ⟨e0, hget0, hp0⟩ := findIdx?_get _ result i hidx
      have he0name : e0.1.name = act.agent.name := by simpa using hp0
      have he0mem : e0 ∈ result := List.get?_mem hget0
      have he0fst : e0.1 ∈ agents := by
        rw [← hmap2]
        exact List.mem_map.mpr ⟨e0, he0mem, rfl⟩
      have he0acte : e0.1 = act.agent :=
        eq_of_name_eq agents hwf.1 e0.1 he0fst act.agent hgood.1 he0name
      -- velocity facts for the direct segment
      have hs0mem : s0 ∈ find_path_2d act lp.action.target := mem_of_head? hs0
      have hdur0 : 0 ≤ s0.duration :=
        find_path_2d_duration_nonneg act lp.action.target
          (hwf.2 act.agent hgood.1).1 (hwf.2 act.agent hgood.1).2 s0 hs0mem
      -- the new path appended for the action
      set path : Path :=
        { moves := find_path_2d act lp.action.target
          action := act
          t_start := idle.t_end
          t_end := idle.t_end + s0.duration + act.duration } with hpathdef
      have hpath_nonneg : path.t_start ≤ path.t_end := by
        rw [hpathdef]
        have h1 : (0 : ℚ) ≤ s0.duration + act.duration :=
          add_nonneg hdur0 hgood.2.1
        calc idle.t_end ≤ idle.t_end + (s0.duration + act.duration) :=
              le_add_of_nonneg_right h1
          _ = idle.t_end + s0.duration + act.duration := by ring
      -- the new entry satisfies the per-entry invariant
      have hEntry : EntryInv (act.agent,
          if idle.t_end ≠ idle.t_start then v0 ++ [idle, path] else v0 ++ [path]) := by
        by_cases hc : idle.t_end ≠ idle.t_start
        · rw [if_pos hc]
          refine ⟨by simp, ?_, ?_, ?_⟩
          · rw [List.chain'_append]
            refine ⟨hch1, ?_, ?_⟩
            · refine List.chain'_cons.mpr ⟨?_, List.chain'_singleton path⟩
              rw [hpathdef]
            · intro x hx y hy
              rw [hlast'] at hx
              simp only [Option.mem_def, Option.some_inj] at hx
              simp only [List.head?_cons, Option.mem_def, Option.some_inj] at hy
              rw [← hx, ← hy, hidleval]
          · intro p hp
            rcases List.mem_append.mp hp with hp1 | hp2
            · exact hok1 p hp1
            · rcases List.mem_cons.mp hp2 with rfl | hp3
              · constructor
                · rw [hidleval]
                  exact hE2
                · intro _
                  rw [hidleval]
                  rcases hEint with h' | h'
                  · exact Or.inl h'.symm
                  · exact Or.inr h'
              · rcases List.mem_singleton.mp hp3 with rfl
                exact ⟨hpath_nonneg, fun hIdle => absurd hIdle (by
                  rw [hpathdef] at hIdle ⊢
                  exact hgood.2.2)⟩
          · intro lpv hlpv
            have : v0 ++ [idle, path] = (v0 ++ [idle]) ++ [path] := by
              rw [List.append_assoc]; rfl
            rw [this, List.getLast?_concat] at hlpv
            simp only [Option.some_inj] at hlpv
            rw [← hlpv, hpathdef]
        · rw [if_neg hc]
          push_neg at hc
          refine ⟨by simp, ?_, ?_, ?_⟩
          · rw [List.chain'_append]
            refine ⟨hch1, List.chain'_singleton path, ?_⟩
            intro x hx y hy
            rw [hlast'] at hx
            simp only [Option.mem_def, Option.some_inj] at hx
            simp only [List.head?_cons, Option.mem_def, Option.some_inj] at hy
            rw [← hx, ← hy, hpathdef]
            show lp'.t_end = idle.t_end
            rw [hidleval] at hc ⊢
            exact hc.symm
          · intro p hp
            rcases List.mem_append.mp hp with hp1 | hp2
            · exact hok1 p hp1
            · rcases List.mem_singleton.mp hp2 with rfl
              exact ⟨hpath_nonneg, fun hIdle => absurd hIdle (by
                rw [hpathdef] at hIdle ⊢
                exact hgood.2.2)⟩
          · intro lpv hlpv
            rw [List.getLast?_concat] at hlpv
            simp only [Option.some_inj] at hlpv
            rw [← hlpv, hpathdef]
      -- assemble the invariant of the updated log
      refine ⟨?_, ?_⟩
      · rw [← hset, List.map_set]
        have hgetfst : agents.get? i = some act.agent := by
          rw [← hmap2, List.get?_map, hget0, Option.map_some', he0acte]
        rw [hmap2]
        exact set_get_self agents i act.agent hgetfst
      · intro e he
        rw [← hset] at he
        rcases List.mem_or_eq_of_mem_set he with he' | rfl
        · exact hents2 e he'
        · exact hEntry
    · -- conflict_loop (n+1)
      intro act pd r r' hinv hcl
      simp only [conflict_loop, Option.bind_eq_bind, Option.bind_eq_some, Option.pure_def,
        Option.some_inj] at hcl
      obtain ⟨c, hfc, hm⟩ := hcl
      cases c with
      | none =>
        simp only [Option.some_inj] at hm
        rw [← hm]
        exact hinv
      | some conflict =>
        simp only [Option.bind_eq_bind, Option.bind_eq_some] at hm
        obtain ⟨r2, hr2, hloop2⟩ := hm
        obtain ⟨e, he, lp, hlp, hlpcause⟩ :=
          first_conflict_cause act.agent pd r conflict hfc
        have hlag : lp.action.agent = e.1 := (hinv.2 e he).2.2.2 lp hlp
        have hgood2 : GoodAction agents (evasion_target conflict) := by
          refine ⟨?_, le_refl 0, ?_⟩
          · show conflict.cause.agent ∈ agents
            rw [← hlpcause, hlag, ← hinv.1]
            exact List.mem_map.mpr ⟨e, he, rfl⟩
          · intro hcon
            cases hcon
        have hinv2 : Inv agents r2 := ihE (evasion_target conflict) r r2 hgood2 hinv hr2
        exact ihL act pd r2 r' hinv2 hloop2

/-- The schedule fold of `routes` preserves the commit-log invariant. -/
theorem foldlM_exec_inv (agents : List Agent) (hwf : WFAgents agents) (fuel : ℕ) :
    ∀ (acts : List Action) (acc r : Log),
      (∀ a ∈ acts, GoodAction agents a) → Inv agents acc →
      acts.foldlM (fun acc a => execute_action fuel a acc) acc = some r →
      Inv agents r := by
  intro acts
  induction acts with
  | nil =>
    intro acc r _ hinv h
    simp only [List.foldlM_nil, Option.pure_def, Option.some_inj] at h
    rw [← h]
    exact hinv
  | cons a as ih =>
    intro acc r hgood hinv h
    rw [List.foldlM_cons] at h
    simp only [Option.bind_eq_bind, Option.bind_eq_some] at h
    obtain ⟨acc2, hacc2, hrest⟩ := h
    have hinv2 : Inv agents acc2 :=
      (exec_preserves_inv agents hwf fuel).1 a acc acc2
        (hgood a (List.mem_cons_self a as)) hinv hacc2
    exact ih acc2 r (fun x hx => hgood x (List.mem_cons_of_mem a hx)) hinv2 hrest

/-- The output of a successful `routes` run satisfies the commit-log
invariant. -/
theorem routes_inv (fuel : ℕ) (agents : List Agent) (sched : Schedule) (R : Routing)
    (hwf : WFInput agents sched) (h : routes fuel agents sched = some R) :
    Inv agents R.routes := by
  simp only [routes, Option.bind_eq_bind, Option.bind_eq_some, Option.pure_def,
    Option.some_inj] at h
  obtain ⟨r, hr, hR⟩ := h
  have hres : Inv agents r :=
    foldlM_exec_inv agents hwf.1 fuel sched.actions (initLog agents) r
      (fun a ha =>
        ⟨(hwf.2 a ha).1, (hwf.2 a ha).2.1, by
          rw [(hwf.2 a ha).2.2]
          exact fun hcon => ActionType.noConfusion hcon⟩)
      (initLog_inv agents) hr
  rw [← hR]
  exact hres

/-- C7: for every well-formed input, in a successful `routes` output each
agent's path list is contiguous in time — `paths[i].t_end =
paths[i+1].t_start` for consecutive paths — and every path has
`t_start ≤ t_end`. -/
theorem routes_time_monotone (fuel : ℕ) (agents : List Agent) (sched : Schedule)
    (R : Routing) (hwf : WFInput agents sched) (h : routes fuel agents sched = some R) :
    ∀ e ∈ R.routes, List.Chain' (fun p q => p.t_end = q.t_start) e.2 ∧
      ∀ p ∈ e.2, p.t_start ≤ p.t_end := by
  intro e he
  obtain ⟨_, hch, hok, _⟩ := (routes_inv fuel agents sched R hwf h).2 e he
  exact ⟨hch, fun p hp => (hok p hp).1⟩

/-- Witness for C7: the property instantiated on a concrete two-agent
empty-schedule run. -/
theorem routes_time_monotone_witness :
    List.Chain' (fun p q : Path => p.t_end = q.t_start) [w2PathA] ∧
    ∀ p ∈ [w2PathA], p.t_start ≤ p.t_end :=
  routes_time_monotone 1 w2Agents ⟨[]⟩ ⟨initLog w2Agents⟩
    (by constructor
        · constructor
          · simp [w2Agents]
          · intro a ha
            fin_cases ha <;> constructor <;> norm_num
        · intro act hact
          cases hact)
    rfl w2EntryA (List.mem_cons_self _ _)

/-- C10: for every well-formed input, a successful `routes` output has
exactly one entry per input agent, in the input order (the entry list's
first components are the input agent list), and each entry's paths are
ordered by `t_start`. -/
theorem routes_frame (fuel : ℕ) (agents : List Agent) (sched : Schedule)
    (R : Routing) (hwf : WFInput agents sched) (h : routes fuel agents sched = some R) :
    R.routes.map Prod.fst = agents ∧
    ∀ e ∈ R.routes, List.Chain' (fun p q => p.t_start ≤ q.t_start) e.2 := by
  have hinv := routes_inv fuel agents sched R hwf h
  refine ⟨hinv.1, ?_⟩
  intro e he
  obtain ⟨_, hch, hok, _⟩ := hinv.2 e he
  exact chain'_le_of_chain'_eq e.2 hch (fun p hp => (hok p hp).1)

/-- Witness for C10: the frame property instantiated on a concrete
two-agent empty-schedule run. -/
theorem routes_frame_witness :
    (⟨initLog w2Agents⟩ : Routing).routes.map Prod.fst = w2Agents :=
  (routes_frame 1 w2Agents ⟨[]⟩ ⟨initLog w2Agents⟩
    (by constructor
        · constructor
          · simp [w2Agents]
          · intro a ha
            fin_cases ha <;> constructor <;> norm_num
        · intro act hact
          cases hact)
    rfl).1

/-- C6 (amended): for every well-formed input, every Idle path of a
successful `routes` output has non-negative duration and either has zero
duration or ends at an integer time; the duration itself is an integer
only when the path starts at an integer time. -/
theorem routes_idle_shape (fuel : ℕ) (agents : List Agent) (sched : Schedule)
    (R : Routing) (hwf : WFInput agents sched) (h : routes fuel agents sched = some R) :
    ∀ e ∈ R.routes, ∀ p ∈ e.2, p.action.type = ActionType.Idle →
      0 ≤ p.t_end - p.t_start ∧ (p.t_start = p.t_end ∨ ∃ n : ℤ, p.t_end = (n : ℚ)) := by
  intro e he p hp hidle
  obtain ⟨_, _, hok, _⟩ := (routes_inv fuel agents sched R hwf h).2 e he
  obtain ⟨hle, hI⟩ := hok p hp
  exact ⟨sub_nonneg.mpr hle, hI hidle⟩

/-- Witness for the amended C6, on a concrete two-agent empty-schedule
run. -/
theorem routes_idle_shape_witness :
    0 ≤ w2PathA.t_end - w2PathA.t_start ∧
    (w2PathA.t_start = w2PathA.t_end ∨ ∃ n : ℤ, w2PathA.t_end = (n : ℚ)) :=
  routes_idle_shape 1 w2Agents ⟨[]⟩ ⟨initLog w2Agents⟩
    (by constructor
        · constructor
          · simp [w2Agents]
          · intro a ha
            fin_cases ha <;> constructor <;> norm_num
        · intro act hact
          cases hact)
    rfl w2EntryA (List.mem_cons_self _ _) w2PathA (List.mem_cons_self _ _) rfl

/-- C5 (amended): executing an action whose direct path raises no
conflict emits no evasive action and changes the log only by replacing
the acting agent's entry, appending at most an idle and then the
action's own path — this holds for every conflict-free state; moreover,
if additionally the agent's previous `t_end` is an integer and no other
agent contributes a wait bound, the idle has duration `0` and is not
appended, and the new path starts exactly at the previous `t_end`. -/
theorem execute_action_conflict_free (fuel : ℕ) (act : Action) (r : Log)
    (ps : List Path) (lp : Path) (s0 : Segment) (i : ℕ)
    (hap : agent_paths act.agent r = some ps)
    (hlast : ps.getLast? = some lp)
    (hs0 : find_path_2d act lp.action.target = [s0])
    (hnc : first_conflict act.agent [s0] r = some none)
    (hidx : r.findIdx? (fun e => e.1.name = act.agent.name) = some i) :
    execute_action (fuel + 2) act r =
      some (r.set i (act.agent,
        if idle_end_amended act lp.t_end s0.start.x s0.stop.x s0.duration r ≠ lp.t_end then
          ps ++
            [{ moves := []
               action :=
                 { agent := act.agent, target := lp.action.target,
                   duration := idle_end_amended act lp.t_end s0.start.x s0.stop.x
                     s0.duration r - lp.t_end,
                   type := ActionType.Idle }
               t_start := lp.t_end
               t_end := idle_end_amended act lp.t_end s0.start.x s0.stop.x s0.duration r },
             { moves := [s0], action := act,
               t_start := idle_end_amended act lp.t_end s0.start.x s0.stop.x s0.duration r,
               t_end := idle_end_amended act lp.t_end s0.start.x s0.stop.x s0.duration r
                 + s0.duration + act.duration }]
        else
          ps ++
            [{ moves := [s0], action := act,
               t_start := idle_end_amended act lp.t_end s0.start.x s0.stop.x s0.duration r,
               t_end := idle_end_amended act lp.t_end s0.start.x s0.stop.x s0.duration r
                 + s0.duration + act.duration }])) ∧
    ((∃ n : ℤ, lp.t_end = (n : ℚ)) →
      r.filterMap (neighbor_wait act lp.t_end s0.start.x s0.stop.x s0.duration) = [] →
      execute_action (fuel + 2) act r =
        some (r.set i (act.agent,
          ps ++ [{ moves := [s0], action := act, t_start := lp.t_end,
                   t_end := lp.t_end + s0.duration + act.duration }]))) := by
  have hloop : conflict_loop (fuel + 1) act [s0] r = some r := by
    show conflict_loop (Nat.succ fuel) act [s0] r = some r
    simp only [conflict_loop, hnc, Option.bind_eq_bind, Option.some_bind, Option.pure_def]
  have hidle := (idle_path_shape act (find_path_2d act lp.action.target) r ps lp s0
    hap hlast (by rw [hs0]; rfl)).1
  rw [hs0] at hidle
  have hbase : execute_action (fuel + 2) act r =
      some (r.set i (act.agent,
        if idle_end_amended act lp.t_end s0.start.x s0.stop.x s0.duration r ≠ lp.t_end then
          ps ++
            [{ moves := []
               action :=
                 { agent := act.agent, target := lp.action.target,
                   duration := idle_end_amended act lp.t_end s0.start.x s0.stop.x
                     s0.duration r - lp.t_end,
                   type := ActionType.Idle }
               t_start := lp.t_end
               t_end := idle_end_amended act lp.t_end s0.start.x s0.stop.x s0.duration r },
             { moves := [s0], action := act,
               t_start := idle_end_amended act lp.t_end s0.start.x s0.stop.x s0.duration r,
               t_end := idle_end_amended act lp.t_end s0.start.x s0.stop.x s0.duration r
                 + s0.duration + act.duration }]
        else
          ps ++
            [{ moves := [s0], action := act,
               t_start := idle_end_amended act lp.t_end s0.start.x s0.stop.x s0.duration r,
               t_end := idle_end_amended act lp.t_end s0.start.x s0.stop.x s0.duration r
                 + s0.duration + act.duration }])) := by
    show execute_action (Nat.succ (fuel + 1)) act r = _
    simp only [execute_action, hap, Option.bind_eq_bind, Option.some_bind, hlast, hs0,
      hloop, hidle, hidx, List.head?_cons, Option.pure_def, Option.some_inj]
  refine ⟨hbase, ?_⟩
  intro hint hclear
  have hE : idle_end_amended act lp.t_end s0.start.x s0.stop.x s0.duration r
      = lp.t_end := by
    obtain ⟨n, hn⟩ := hint
    rw [idle_end_amended, hclear]
    simp only [reduceOpt, Option.getD_none]
    rw [hn]
    show max (ceilQ (n : ℚ)) (n : ℚ) = (n : ℚ)
    rw [ceilQ, Int.ceil_intCast]
    exact max_self _
  rw [hE] at hbase
  rw [hbase, if_neg (fun hcon => hcon rfl)]

/-- Witness for the amended C5, on a concrete conflict-free two-agent
log. -/
theorem execute_action_conflict_free_witness :
    execute_action 2 c5Act c5Log =
      some (c5Log.set 0 (c5Act.agent,
        [⟨[], ⟨c5A, ⟨0, 0⟩, 0, ActionType.Idle⟩, 0, 0⟩] ++
          [{ moves := [⟨⟨0, 0⟩, ⟨10, 0⟩, 10⟩], action := c5Act, t_start := 0,
             t_end := 0 + 10 + 0 }])) :=
  (execute_action_conflict_free 0 c5Act c5Log
    [⟨[], ⟨c5A, ⟨0, 0⟩, 0, ActionType.Idle⟩, 0, 0⟩]
    ⟨[], ⟨c5A, ⟨0, 0⟩, 0, ActionType.Idle⟩, 0, 0⟩
    ⟨⟨0, 0⟩, ⟨10, 0⟩, 10⟩ 0
    (by decide) (by decide) (by with_unfolding_all decide)
    (by with_unfolding_all decide) (by decide)).2
    ⟨0, by with_unfolding_all decide⟩ (by with_unfolding_all decide)

/-- C5 (counterexample): on the single-agent log `c5cexLog`, the second
action's direct path raises no conflict (`first_conflict` returns
`None`), yet the executed action inserts an idle of duration `1/2` — the
claim's `Δ = 0` fails because the agent's previous `t_end` is the
fractional `1/2` and the idle end time is ceiled to `1`. -/
theorem c5_idle_inserted_without_conflict :
    first_conflict c6A (find_path_2d c5cexAct2 ⟨1, 0⟩) c5cexLog = some none ∧
    (((execute_action 2 c5cexAct2 c5cexLog).bind (fun r => r.head?)).bind
      (fun e => e.2.get? 2)).map (fun p => (p.action.type, p.t_end - p.t_start)) =
      some (ActionType.Idle, 1 / 2) := by
  constructor <;> with_unfolding_all decide

end Keiro
